import Mathlib

/-! # Verification of the NSE India API client (option-chain analytics,
session and download layer)

This file gives a shallow embedding, in Lean, of the parts of `src/nse/NSE.py`
that the specification's claims are about:

* `NSE.maxpain` (prefix-sum max-pain computation over a raw option chain),
* `NSE.compileOptionChain` (per-strike statistics and aggregates),
* `NSE._getCookies` (cookie-jar load / bootstrap logic),
* `NSE._download` and the post-download check in `NSE.equityBhavcopy`,
* `NSE.optionChain`'s expiry-cache resolution,
* `NSE._split_date_range` (date-range chunking),
* `NSE._unzip` (archive unpacking).

Python machine-level details are modelled as follows: Python's arbitrary
precision integers are `Int`; ratios are `ℚ`; JSON payload rows are structures
with `Option`al sides for keys the upstream feed omits; code that can raise is
embedded as functions into `Except PyErr _`, with one `PyErr` constructor per
Python exception class the modelled code can raise.
-/

/-- Python exception classes raised (directly or by library calls) in the
modelled code paths. -/
inductive PyErr where
  | indexError
  | zeroDivisionError
  | fileNotFoundError
  | unpicklingError
  | typeError
  | valueError (msg : String)
  | runtimeError (msg : String)
  | connectionError (msg : String)
  | timeoutError
deriving DecidableEq, Repr

instance {ε α : Type} [DecidableEq ε] [DecidableEq α] : DecidableEq (Except ε α) :=
  fun x y =>
    match x, y with
    | .error a, .error b =>
      if h : a = b then isTrue (by rw [h])
      else isFalse (fun hh => h (by injection hh))
    | .ok a, .ok b =>
      if h : a = b then isTrue (by rw [h])
      else isFalse (fun hh => h (by injection hh))
    | .error _, .ok _ => isFalse (fun hh => Except.noConfusion hh)
    | .ok _, .error _ => isFalse (fun hh => Except.noConfusion hh)

/-! ## Data model: raw option-chain payload

One row of `data["records"]["data"]`: a `(strikePrice, expiryDates)` pair with
optional `CE` / `PE` sides.  The code reads exactly the four fields below from
a side. -/

/-- The fields the code reads from a `CE`/`PE` side of a raw option-chain row.
`chg` is the key string the code passes to `.get` (`dataFields` tuple). -/
structure OptionSide where
  openInterest : Int
  lastPrice : Int
  chg : Int
  impliedVolatility : Int
deriving DecidableEq, Repr

/-- One row of the raw option-chain `records.data` list. -/
structure OCRow where
  expiryDates : String
  strikePrice : Int
  CE : Option OptionSide
  PE : Option OptionSide
deriving DecidableEq, Repr

/-- The `data["records"]` object: timestamp, underlying value and the row list. -/
structure OptionChainRecords where
  timestamp : String
  underlyingValue : Int
  data : List OCRow
deriving DecidableEq, Repr

/-- The raw option-chain payload: `records` plus `filtered.data` (used only for
the strike-spacing computation in `compileOptionChain`). -/
structure OptionChainPayload where
  records : OptionChainRecords
  filtered : List OCRow
deriving DecidableEq, Repr

/-- Models `row.get("CE", {}).get("openInterest", 0)`. -/
def ceOiOf (r : OCRow) : Int :=
  match r.CE with
  | some s => s.openInterest
  | none => 0

/-- Models `row.get("PE", {}).get("openInterest", 0)`. -/
def peOiOf (r : OCRow) : Int :=
  match r.PE with
  | some s => s.openInterest
  | none => 0

/-- The rows of `records.data` whose `expiryDates` equals the formatted expiry
(the `continue`-filter at the top of `NSE.maxpain`'s gathering loop). -/
def matchedRows (chain : OptionChainPayload) (expiry : String) : List OCRow :=
  chain.records.data.filter (fun r => r.expiryDates = expiry)

/-! ## `NSE.maxpain`

The Python builds four arrays of cumulative sums over the expiry-matched rows
(`ce_sum`, `ce_val`, `pe_sum`, `pe_val`), then scans all observed strikes
keeping the first one with strictly smaller total pain.  `cumSums` is the
functional rendition of the in-place loop `arr[i] = arr[i-1] + x[i]` over a
zero-initialised array (at `i = 0` the Python read `arr[-1]` sees the
still-zero last slot, so entry `i` is the sum of inputs `0..i`). -/

/-- Cumulative sums: entry `i` of the output is the sum of inputs `0..i`. -/
def cumSums : List Int → List Int
  | [] => []
  | x :: xs => x :: (cumSums xs).map (x + ·)

/-- The body of the settlement-scan loop in `NSE.maxpain`: total pain when the
settlement price is the strike at index `i`.
`call_pain = settlement * ce_sum[i] - ce_val[i]`;
`put_pain = (pe_val[-1] - pe_val[i]) - settlement * (pe_sum[-1] - pe_sum[i])`. -/
def painAt (strikes ce_oi pe_oi : List Int) (i : Nat) : Int :=
  let ce_sum := cumSums ce_oi
  let ce_val := cumSums (List.zipWith (· * ·) ce_oi strikes)
  let pe_sum := cumSums pe_oi
  let pe_val := cumSums (List.zipWith (· * ·) pe_oi strikes)
  let settlement := strikes.getD i 0
  let call_pain := settlement * ce_sum.getD i 0 - ce_val.getD i 0
  let put_pain :=
    (pe_val.getLastD 0 - pe_val.getD i 0) - settlement * (pe_sum.getLastD 0 - pe_sum.getD i 0)
  call_pain + put_pain

/-- One step of `maxpain`'s scan: state is `(min_payout, max_pain_strike)` with
`none` standing for the initial `float("inf")`; the strike is updated exactly
when `total_pain < min_payout` (strict, so the first minimum wins). -/
def mpStepIdx (painIdx : Nat → Int) (acc : Option Int × Int) (p : Nat × Int) :
    Option Int × Int :=
  let pain := painIdx p.1
  match acc.1 with
  | none => (some pain, p.2)
  | some m => if pain < m then (some pain, p.2) else acc

/-- Embeds `NSE.maxpain(optionChain, expiryDate)`.  Here `expiry` is the already formatted
`"%d-%b-%Y"` string.  `max_pain_strike = strikes[0]` raises `IndexError` when no
row matches the expiry. -/
def maxpain (chain : OptionChainPayload) (expiry : String) : Except PyErr Int :=
  let rows := matchedRows chain expiry
  let strikes := rows.map (fun r => r.strikePrice)
  let ce_oi := rows.map ceOiOf
  let pe_oi := rows.map peOiOf
  match strikes with
  | [] => .error .indexError
  | s0 :: _ =>
    .ok ((strikes.enum.foldl (mpStepIdx (painAt strikes ce_oi pe_oi)) (none, s0)).2)

/-! ## Specification-side max pain (for the refinement claim C1)

`specTotalPain` and `specMaxpain` are written from the claim's words, not from
the code: total pain at a settlement `s` is the sum over matching strikes
`k ≤ s` of `callOI(k) * (s - k)` plus the sum over matching strikes `k ≥ s` of
`putOI(k) * (k - s)`; the result is the first observed strike (in list order,
which the claim assumes ascending) minimizing total pain. -/

/-- Spec-side total pain at settlement price `s` over the matched rows. -/
def specTotalPain (rows : List OCRow) (s : Int) : Int :=
  ((rows.filter (fun r => r.strikePrice ≤ s)).map (fun r => ceOiOf r * (s - r.strikePrice))).sum
    + ((rows.filter (fun r => s ≤ r.strikePrice)).map (fun r => peOiOf r * (r.strikePrice - s))).sum

/-- Spec-side max pain: the first observed strike minimizing `specTotalPain`
(ties broken by first occurrence in list order). -/
def specMaxpain (rows : List OCRow) : Option Int :=
  match rows.map (fun r => r.strikePrice) with
  | [] => none
  | s0 :: rest =>
    some (rest.foldl
      (fun best t => if specTotalPain rows t < specTotalPain rows best then t else best) s0)

example :
    maxpain
      ⟨⟨"ts", 0, [⟨"e", 90, none, some ⟨5, 0, 0, 0⟩⟩,
                   ⟨"e", 100, some ⟨50, 0, 0, 0⟩, none⟩,
                   ⟨"e", 110, some ⟨10, 0, 0, 0⟩, none⟩]⟩, []⟩ "e" = .ok 90 := by decide

example :
    specMaxpain [⟨"e", 90, none, some ⟨5, 0, 0, 0⟩⟩,
                 ⟨"e", 100, some ⟨50, 0, 0, 0⟩, none⟩,
                 ⟨"e", 110, some ⟨10, 0, 0, 0⟩, none⟩] = some 90 := by decide

/-! ### Helper lemmas for the max-pain proof -/

theorem length_cumSums (xs : List Int) : (cumSums xs).length = xs.length := by
  induction xs with
  | nil => rfl
  | cons x xs ih => simp [cumSums, ih]

theorem cumSums_getD (xs : List Int) (i : Nat) (hi : i < xs.length) :
    (cumSums xs).getD i 0 = (xs.take (i + 1)).sum := by
  induction xs generalizing i with
  | nil => simp at hi
  | cons x xs ih =>
    cases i with
    | zero => simp [cumSums]
    | succ i =>
      have hi' : i < xs.length := by simpa using hi
      have hlen : i < (cumSums xs).length := by rw [length_cumSums]; exact hi'
      calc (cumSums (x :: xs)).getD (i + 1) 0
          = ((cumSums xs).map (x + ·)).getD i 0 := by simp [cumSums, List.getD]
        _ = x + (cumSums xs).getD i 0 := by
            rw [List.getD_eq_getElem?_getD, List.getElem?_map,
              List.getD_eq_getElem?_getD, List.getElem?_eq_getElem hlen]
            rfl
        _ = x + (xs.take (i + 1)).sum := by rw [ih i hi']
        _ = ((x :: xs).take (i + 1 + 1)).sum := by simp

theorem cumSums_map_add_getLastD (xs : List Int) (x : Int) :
    ((cumSums xs).map (x + ·)).getLastD x = x + xs.sum := by
  induction xs generalizing x with
  | nil => simp [cumSums]
  | cons y ys ih =>
    have hmap : ((cumSums ys).map (y + ·)).map (x + ·)
        = (cumSums ys).map ((x + y) + ·) := by
      rw [List.map_map]
      exact List.map_congr_left (fun a _ => by simp [Function.comp, add_assoc])
    calc ((cumSums (y :: ys)).map (x + ·)).getLastD x
        = ((x + y) :: ((cumSums ys).map (y + ·)).map (x + ·)).getLastD x := by
          simp [cumSums]
      _ = (((cumSums ys).map (y + ·)).map (x + ·)).getLastD (x + y) := by
          rw [List.getLastD_cons]
      _ = ((cumSums ys).map ((x + y) + ·)).getLastD (x + y) := by rw [hmap]
      _ = (x + y) + ys.sum := ih (x + y)
      _ = x + (y :: ys).sum := by simp [add_assoc]

theorem cumSums_getLastD (xs : List Int) : (cumSums xs).getLastD 0 = xs.sum := by
  cases xs with
  | nil => rfl
  | cons x xs =>
    calc (cumSums (x :: xs)).getLastD 0
        = ((cumSums xs).map (x + ·)).getLastD x := by
          rw [show cumSums (x :: xs) = x :: (cumSums xs).map (x + ·) from rfl,
            List.getLastD_cons]
      _ = x + xs.sum := cumSums_map_add_getLastD xs x
      _ = (x :: xs).sum := by simp

theorem zipWith_mul_map (l : List OCRow) (f g : OCRow → Int) :
    List.zipWith (· * ·) (l.map f) (l.map g) = l.map (fun r => f r * g r) := by
  induction l with
  | nil => rfl
  | cons r rs ih => simp [ih]

theorem sum_map_mul_sub_left (A : List OCRow) (f k : OCRow → Int) (s : Int) :
    (A.map (fun r => f r * (s - k r))).sum
      = s * (A.map f).sum - (A.map (fun r => f r * k r)).sum := by
  induction A with
  | nil => simp
  | cons r rs ih => simp [ih]; ring

theorem sum_map_mul_sub_right (A : List OCRow) (f k : OCRow → Int) (s : Int) :
    (A.map (fun r => f r * (k r - s))).sum
      = (A.map (fun r => f r * k r)).sum - s * (A.map f).sum := by
  induction A with
  | nil => simp
  | cons r rs ih => simp [ih]; ring

theorem sum_map_drop (l : List OCRow) (h : OCRow → Int) (n : Nat) :
    ((l.drop n).map h).sum = (l.map h).sum - ((l.take n).map h).sum := by
  have hsplit := congrArg (fun t => (t.map h).sum) (List.take_append_drop n l)
  simp only [List.map_append, List.sum_append] at hsplit
  omega

theorem filter_le_eq_take (rows : List OCRow) (i : Nat) (hi : i < rows.length)
    (hsort : (rows.map (fun r => r.strikePrice)).Pairwise (· < ·)) :
    rows.filter (fun r => r.strikePrice ≤ (rows.get ⟨i, hi⟩).strikePrice)
      = rows.take (i + 1) := by
  induction rows generalizing i with
  | nil => simp at hi
  | cons r rest ih =>
    rw [List.map_cons, List.pairwise_cons] at hsort
    cases i with
    | zero =>
      have hget : (r :: rest).get ⟨0, hi⟩ = r := rfl
      rw [hget, List.filter_cons, if_pos (by simp)]
      show r :: _ = (r :: rest).take 1
      rw [List.take_succ_cons, List.take_zero]
      congr 1
      rw [List.filter_eq_nil_iff]
      intro a ha
      have hlt : r.strikePrice < a.strikePrice :=
        hsort.1 a.strikePrice (List.mem_map.mpr ⟨a, ha, rfl⟩)
      simp only [decide_eq_true_eq]
      omega
    | succ i =>
      have hi' : i < rest.length := by simpa using hi
      have hget : (r :: rest).get ⟨i + 1, hi⟩ = rest.get ⟨i, hi'⟩ := rfl
      rw [hget]
      have hr : r.strikePrice < (rest.get ⟨i, hi'⟩).strikePrice :=
        hsort.1 _ (List.mem_map.mpr ⟨rest.get ⟨i, hi'⟩, List.get_mem rest i hi', rfl⟩)
      rw [List.filter_cons, if_pos (by simp only [decide_eq_true_eq]; omega),
        List.take_succ_cons]
      congr 1
      exact ih i hi' hsort.2

theorem filter_ge_eq_drop (rows : List OCRow) (i : Nat) (hi : i < rows.length)
    (hsort : (rows.map (fun r => r.strikePrice)).Pairwise (· < ·)) :
    rows.filter (fun r => (rows.get ⟨i, hi⟩).strikePrice ≤ r.strikePrice)
      = rows.drop i := by
  induction rows generalizing i with
  | nil => simp at hi
  | cons r rest ih =>
    rw [List.map_cons, List.pairwise_cons] at hsort
    cases i with
    | zero =>
      have hget : (r :: rest).get ⟨0, hi⟩ = r := rfl
      rw [hget, List.drop_zero, List.filter_eq_self]
      intro a ha
      rcases List.mem_cons.mp ha with h | h
      · subst h; simp
      · have hlt : r.strikePrice < a.strikePrice :=
          hsort.1 a.strikePrice (List.mem_map.mpr ⟨a, h, rfl⟩)
        simp only [decide_eq_true_eq]
        omega
    | succ i =>
      have hi' : i < rest.length := by simpa using hi
      have hget : (r :: rest).get ⟨i + 1, hi⟩ = rest.get ⟨i, hi'⟩ := rfl
      rw [hget]
      have hr : r.strikePrice < (rest.get ⟨i, hi'⟩).strikePrice :=
        hsort.1 _ (List.mem_map.mpr ⟨rest.get ⟨i, hi'⟩, List.get_mem rest i hi', rfl⟩)
      rw [List.filter_cons, if_neg (by simp only [decide_eq_true_eq]; omega),
        List.drop_succ_cons]
      exact ih i hi' hsort.2

theorem getD_map_lt (f : OCRow → Int) (l : List OCRow) (i : Nat) (hi : i < l.length) :
    (l.map f).getD i 0 = f (l.get ⟨i, hi⟩) := by
  rw [List.getD_eq_getElem?_getD, List.getElem?_map, List.getElem?_eq_getElem hi]
  simp [List.get_eq_getElem]

/-- Pointwise correctness of the loop body: under strictly ascending strikes,
the prefix-sum pain of the code at index `i` equals the claim's total pain at
the `i`-th matched strike. -/
theorem painAt_matched (rows : List OCRow) (i : Nat) (hi : i < rows.length)
    (hsort : (rows.map (fun r => r.strikePrice)).Pairwise (· < ·)) :
    painAt (rows.map (fun r => r.strikePrice)) (rows.map ceOiOf) (rows.map peOiOf) i
      = specTotalPain rows ((rows.get ⟨i, hi⟩).strikePrice) := by
  simp only [painAt, specTotalPain]
  rw [zipWith_mul_map, zipWith_mul_map, cumSums_getLastD, cumSums_getLastD,
    cumSums_getD (rows.map ceOiOf) i (by simpa using hi),
    cumSums_getD (rows.map (fun r => ceOiOf r * r.strikePrice)) i (by simpa using hi),
    cumSums_getD (rows.map peOiOf) i (by simpa using hi),
    cumSums_getD (rows.map (fun r => peOiOf r * r.strikePrice)) i (by simpa using hi),
    getD_map_lt (fun r => r.strikePrice) rows i hi,
    ← List.map_take, ← List.map_take, ← List.map_take, ← List.map_take,
    filter_le_eq_take rows i hi hsort, filter_ge_eq_drop rows i hi hsort,
    List.drop_eq_getElem_cons hi, List.map_cons, List.sum_cons,
    sum_map_mul_sub_left, sum_map_mul_sub_right,
    sum_map_drop rows (fun r => peOiOf r * r.strikePrice) (i + 1),
    sum_map_drop rows peOiOf (i + 1)]
  simp only [List.get_eq_getElem]
  ring

/-- The scan step expressed on strike values only (used to bridge the code's
index-based loop and the spec-side fold). -/
def mpStepVal (g : Int → Int) (acc : Option Int × Int) (v : Int) : Option Int × Int :=
  match acc.1 with
  | none => (some (g v), v)
  | some m => if g v < m then (some (g v), v) else acc

theorem foldl_enumFrom_mpStep (painIdx : Nat → Int) (g : Int → Int) :
    ∀ (l : List Int) (k : Nat) (acc : Option Int × Int),
      (∀ (j : Nat) (hj : j < l.length), painIdx (k + j) = g (l.get ⟨j, hj⟩)) →
      (List.enumFrom k l).foldl (mpStepIdx painIdx) acc = l.foldl (mpStepVal g) acc := by
  intro l
  induction l with
  | nil => intro k acc _; rfl
  | cons x xs ih =>
    intro k acc h
    have hx : painIdx k = g x := by
      have := h 0 (by simp)
      simpa using this
    have hstep : mpStepIdx painIdx acc (k, x) = mpStepVal g acc x := by
      cases hacc : acc.1 with
      | none => simp [mpStepIdx, mpStepVal, hacc, hx]
      | some m => simp [mpStepIdx, mpStepVal, hacc, hx]
    calc (List.enumFrom k (x :: xs)).foldl (mpStepIdx painIdx) acc
        = (List.enumFrom (k + 1) xs).foldl (mpStepIdx painIdx)
            (mpStepIdx painIdx acc (k, x)) := by rfl
      _ = (List.enumFrom (k + 1) xs).foldl (mpStepIdx painIdx) (mpStepVal g acc x) := by
          rw [hstep]
      _ = xs.foldl (mpStepVal g) (mpStepVal g acc x) := by
          apply ih
          intro j hj
          have hj' : j + 1 < (x :: xs).length := by simpa using Nat.succ_lt_succ hj
          have := h (j + 1) hj'
          have harith : k + (j + 1) = k + 1 + j := by omega
          rw [harith] at this
          exact this
      _ = (x :: xs).foldl (mpStepVal g) acc := by rfl

theorem foldl_mpStepVal_some (g : Int → Int) :
    ∀ (l : List Int) (b : Int),
      l.foldl (mpStepVal g) (some (g b), b)
        = (some (g (l.foldl (fun best t => if g t < g best then t else best) b)),
           l.foldl (fun best t => if g t < g best then t else best) b) := by
  intro l
  induction l with
  | nil => intro b; rfl
  | cons x xs ih =>
    intro b
    by_cases hlt : g x < g b
    · calc (x :: xs).foldl (mpStepVal g) (some (g b), b)
          = xs.foldl (mpStepVal g) (mpStepVal g (some (g b), b) x) := by rfl
        _ = xs.foldl (mpStepVal g) (some (g x), x) := by
            simp [mpStepVal, if_pos hlt]
        _ = _ := by rw [ih x]; simp [List.foldl_cons, if_pos hlt]
    · calc (x :: xs).foldl (mpStepVal g) (some (g b), b)
          = xs.foldl (mpStepVal g) (mpStepVal g (some (g b), b) x) := by rfl
        _ = xs.foldl (mpStepVal g) (some (g b), b) := by
            simp [mpStepVal, if_neg hlt]
        _ = _ := by rw [ih b]; simp [List.foldl_cons, if_neg hlt]

/-- Refinement: on strictly-ascending matched strikes, `NSE.maxpain` computes
exactly the spec-side max pain (and `IndexError` exactly when nothing
matches). -/
theorem maxpain_eq_specMaxpain (chain : OptionChainPayload) (expiry : String)
    (hsort : ((matchedRows chain expiry).map (fun r => r.strikePrice)).Pairwise (· < ·)) :
    maxpain chain expiry
      = match specMaxpain (matchedRows chain expiry) with
        | none => .error .indexError
        | some s => .ok s := by
  rcases hmap : (matchedRows chain expiry).map (fun r => r.strikePrice) with _ | ⟨s0, rest⟩
  · simp only [maxpain, specMaxpain, hmap]
  · have hlen : (s0 :: rest).length = (matchedRows chain expiry).length := by
      rw [← hmap, List.length_map]
    have hcond : ∀ (j : Nat) (hj : j < (s0 :: rest).length),
        painAt (s0 :: rest) ((matchedRows chain expiry).map ceOiOf)
            ((matchedRows chain expiry).map peOiOf) (0 + j)
          = specTotalPain (matchedRows chain expiry) ((s0 :: rest).get ⟨j, hj⟩) := by
      intro j hj
      have hj' : j < (matchedRows chain expiry).length := hlen ▸ hj
      have h1 : (s0 :: rest)[j]? = some ((s0 :: rest).get ⟨j, hj⟩) := by
        rw [List.getElem?_eq_getElem hj]
        simp [List.get_eq_getElem]
      have h2 : (s0 :: rest)[j]?
          = some (((matchedRows chain expiry).get ⟨j, hj'⟩).strikePrice) := by
        rw [← hmap, List.getElem?_map, List.getElem?_eq_getElem hj']
        simp [List.get_eq_getElem]
      have hget : (s0 :: rest).get ⟨j, hj⟩
          = ((matchedRows chain expiry).get ⟨j, hj'⟩).strikePrice :=
        Option.some.inj (h1.symm.trans h2)
      rw [Nat.zero_add, hget, ← hmap]
      exact painAt_matched _ j hj' hsort
    calc maxpain chain expiry
        = .ok (((s0 :: rest).enum.foldl
            (mpStepIdx (painAt (s0 :: rest) ((matchedRows chain expiry).map ceOiOf)
              ((matchedRows chain expiry).map peOiOf))) (none, s0)).2) := by
          simp only [maxpain, hmap]
      _ = .ok (((s0 :: rest).foldl
            (mpStepVal (specTotalPain (matchedRows chain expiry))) (none, s0)).2) := by
          rw [show (s0 :: rest).enum = List.enumFrom 0 (s0 :: rest) from rfl,
            foldl_enumFrom_mpStep _ _ (s0 :: rest) 0 (none, s0) hcond]
      _ = .ok ((rest.foldl (mpStepVal (specTotalPain (matchedRows chain expiry)))
            (some (specTotalPain (matchedRows chain expiry) s0), s0)).2) := by rfl
      _ = .ok (rest.foldl
            (fun best t => if specTotalPain (matchedRows chain expiry) t
                < specTotalPain (matchedRows chain expiry) best then t else best) s0) := by
          rw [foldl_mpStepVal_some (specTotalPain (matchedRows chain expiry)) rest s0]
      _ = match specMaxpain (matchedRows chain expiry) with
          | none => .error .indexError
          | some s => .ok s := by
          simp only [specMaxpain, hmap]

/-- The first-minimum fold: on a strictly ascending list `b :: l`, the fold
returns an element minimizing `g`, and on ties the smallest (= first) such
element. -/
theorem foldl_min_first (g : Int → Int) :
    ∀ (l : List Int) (b : Int), List.Pairwise (· < ·) (b :: l) →
      (l.foldl (fun best t => if g t < g best then t else best) b) ∈ b :: l
      ∧ (∀ t ∈ b :: l,
          g (l.foldl (fun best t => if g t < g best then t else best) b) ≤ g t)
      ∧ (∀ t ∈ b :: l,
          g t = g (l.foldl (fun best t => if g t < g best then t else best) b)
          → (l.foldl (fun best t => if g t < g best then t else best) b) ≤ t) := by
  intro l
  induction l with
  | nil =>
    intro b _
    refine ⟨by simp, ?_, ?_⟩
    · intro t ht
      rw [List.mem_singleton] at ht
      subst ht
      exact le_refl _
    · intro t ht _
      rw [List.mem_singleton] at ht
      subst ht
      exact le_refl _
  | cons x xs ih =>
    intro b hpair
    have hbx : b < x := (List.pairwise_cons.mp hpair).1 x (List.mem_cons_self x xs)
    have hbxs : ∀ t ∈ xs, b < t := fun t ht =>
      (List.pairwise_cons.mp hpair).1 t (List.mem_cons_of_mem x ht)
    have hxxs : List.Pairwise (· < ·) (x :: xs) := (List.pairwise_cons.mp hpair).2
    by_cases hxb : g x < g b
    · obtain ⟨hmem, hmin, hfirst⟩ := ih x hxxs
      have hfold : (x :: xs).foldl (fun best t => if g t < g best then t else best) b
          = xs.foldl (fun best t => if g t < g best then t else best) x := by
        simp only [List.foldl_cons]
        rw [if_pos hxb]
      refine ⟨?_, ?_, ?_⟩
      · rw [hfold]
        exact List.mem_cons_of_mem b hmem
      · intro t ht
        rw [hfold]
        rcases List.mem_cons.mp ht with h | h
        · subst h
          have h1 : g (xs.foldl (fun best t => if g t < g best then t else best) x) ≤ g x :=
            hmin x (List.mem_cons_self x xs)
          omega
        · exact hmin t h
      · intro t ht hgt
        rw [hfold] at hgt ⊢
        rcases List.mem_cons.mp ht with h | h
        · subst h
          have h1 : g (xs.foldl (fun best t => if g t < g best then t else best) x) ≤ g x :=
            hmin x (List.mem_cons_self x xs)
          omega
        · exact hfirst t h hgt
    · have hpair' : List.Pairwise (· < ·) (b :: xs) := by
        rw [List.pairwise_cons]
        exact ⟨hbxs, (List.pairwise_cons.mp hxxs).2⟩
      obtain ⟨hmem, hmin, hfirst⟩ := ih b hpair'
      have hfold : (x :: xs).foldl (fun best t => if g t < g best then t else best) b
          = xs.foldl (fun best t => if g t < g best then t else best) b := by
        simp only [List.foldl_cons]
        rw [if_neg hxb]
      refine ⟨?_, ?_, ?_⟩
      · rw [hfold]
        rcases List.mem_cons.mp hmem with h | h
        · rw [h]; exact List.mem_cons_self b _
        · exact List.mem_cons_of_mem b (List.mem_cons_of_mem x h)
      · intro t ht
        rw [hfold]
        rcases List.mem_cons.mp ht with h | h
        · rw [h]
          exact hmin b (List.mem_cons_self b xs)
        · rcases List.mem_cons.mp h with h' | h'
          · subst h'
            have h1 : g (xs.foldl (fun best t => if g t < g best then t else best) b) ≤ g b :=
              hmin b (List.mem_cons_self b xs)
            omega
          · exact hmin t (List.mem_cons_of_mem b h')
      · intro t ht hgt
        rw [hfold] at hgt ⊢
        rcases List.mem_cons.mp ht with h | h
        · have ht' : t ∈ b :: xs := by rw [h]; exact List.mem_cons_self b xs
          exact hfirst t ht' hgt
        · rcases List.mem_cons.mp h with h' | h'
          · subst h'
            have h1 : g (xs.foldl (fun best t => if g t < g best then t else best) b) ≤ g b :=
              hmin b (List.mem_cons_self b xs)
            have h2 : g b = g (xs.foldl (fun best t => if g t < g best then t else best) b) := by
              omega
            have h3 := hfirst b (List.mem_cons_self b xs) h2
            omega
          · exact hfirst t (List.mem_cons_of_mem b h') hgt

/-- Claim C1: for every option chain whose rows matching the given expiry form a
non-empty sequence listed in (strictly) ascending strike order, `maxpain`
returns an observed strike minimizing the claim's total pain
(`specTotalPain`): it agrees with the spec-side `specMaxpain`, the returned
strike is an observed strike, it minimizes total pain over all observed
strikes, and among minimizers it is the first in ascending-strike order (the
smallest).  The concentrated-OI case of the claim is the witness below. -/
theorem maxpain_minimizes_total_pain (chain : OptionChainPayload) (expiry : String)
    (hne : matchedRows chain expiry ≠ [])
    (hsort : ((matchedRows chain expiry).map (fun r => r.strikePrice)).Pairwise (· < ·)) :
    ∃ s, maxpain chain expiry = Except.ok s
      ∧ specMaxpain (matchedRows chain expiry) = some s
      ∧ s ∈ (matchedRows chain expiry).map (fun r => r.strikePrice)
      ∧ (∀ t ∈ (matchedRows chain expiry).map (fun r => r.strikePrice),
          specTotalPain (matchedRows chain expiry) s
            ≤ specTotalPain (matchedRows chain expiry) t)
      ∧ (∀ t ∈ (matchedRows chain expiry).map (fun r => r.strikePrice),
          specTotalPain (matchedRows chain expiry) t
              = specTotalPain (matchedRows chain expiry) s
            → s ≤ t) := by
  rcases hmap : (matchedRows chain expiry).map (fun r => r.strikePrice) with _ | ⟨s0, rest⟩
  · exact absurd (List.map_eq_nil.mp hmap) hne
  · have heq := maxpain_eq_specMaxpain chain expiry hsort
    have hspec : specMaxpain (matchedRows chain expiry)
        = some (rest.foldl (fun best t =>
            if specTotalPain (matchedRows chain expiry) t
                < specTotalPain (matchedRows chain expiry) best then t else best) s0) := by
      simp only [specMaxpain, hmap]
    have hsort' : List.Pairwise (· < ·) (s0 :: rest) := hmap ▸ hsort
    obtain ⟨hmem, hmin, hfirst⟩ := foldl_min_first
      (specTotalPain (matchedRows chain expiry)) rest s0 hsort'
    refine ⟨_, ?_, hspec, ?_, ?_, ?_⟩
    · rw [heq, hspec]
    · rw [hmap]; exact hmem
    · rw [hmap]; exact hmin
    · rw [hmap]; exact hfirst

/-- A synthetic chain with all open interest concentrated at strike 100. -/
def concentratedChain : OptionChainPayload :=
  ⟨⟨"ts", 0, [⟨"30-Jan-2025", 90, some ⟨0, 0, 0, 0⟩, some ⟨0, 0, 0, 0⟩⟩,
              ⟨"30-Jan-2025", 100, some ⟨400, 0, 0, 0⟩, some ⟨350, 0, 0, 0⟩⟩,
              ⟨"30-Jan-2025", 110, none, none⟩]⟩, []⟩

/-- Witness for C1 at the concentrated chain: `maxpain` returns exactly the
concentrated strike 100. -/
theorem maxpain_minimizes_total_pain_witness :
    maxpain concentratedChain "30-Jan-2025" = Except.ok 100 := by
  obtain ⟨s, h1, h2, _, _, _⟩ := maxpain_minimizes_total_pain concentratedChain
    "30-Jan-2025" (by decide) (by decide)
  have hs : specMaxpain (matchedRows concentratedChain "30-Jan-2025") = some 100 := by
    decide
  rw [h2] at hs
  rw [Option.some.inj hs] at h1
  exact h1

/-- Claim C9: `maxpain` is partial on empty filters: when no row's expiry equals
the formatted expiry argument, it fails with `IndexError` (the `strikes[0]`
access); when at least one row matches, it returns a strike. -/
theorem maxpain_partial_on_empty_filter (chain : OptionChainPayload) (expiry : String) :
    ((∀ r ∈ chain.records.data, r.expiryDates ≠ expiry) →
        maxpain chain expiry = Except.error PyErr.indexError)
    ∧ ((∃ r ∈ chain.records.data, r.expiryDates = expiry) →
        ∃ s, maxpain chain expiry = Except.ok s) := by
  constructor
  · intro h
    have hnil : matchedRows chain expiry = [] := by
      rw [matchedRows, List.filter_eq_nil_iff]
      intro a ha
      simpa using h a ha
    simp only [maxpain, hnil, List.map_nil]
  · rintro ⟨r, hr, he⟩
    have hmem : r ∈ matchedRows chain expiry := by
      rw [matchedRows]
      exact List.mem_filter.mpr ⟨hr, by simpa using he⟩
    rcases hmap : (matchedRows chain expiry).map (fun rr => rr.strikePrice)
      with _ | ⟨s0, rest⟩
    · rw [List.map_eq_nil] at hmap
      rw [hmap] at hmem
      cases hmem
    · refine ⟨((s0 :: rest).enum.foldl (mpStepIdx (painAt (s0 :: rest)
        ((matchedRows chain expiry).map ceOiOf)
        ((matchedRows chain expiry).map peOiOf))) (none, s0)).2, ?_⟩
      simp only [maxpain, hmap]

/-- A chain whose single row has expiry `"31-Dec-2024"`. -/
def c9Chain : OptionChainPayload :=
  ⟨⟨"ts", 0, [⟨"31-Dec-2024", 100, some ⟨10, 0, 0, 0⟩, none⟩]⟩, []⟩

/-- Witness for C9: asking for an expiry no row carries makes `maxpain` fail
with `IndexError`. -/
theorem maxpain_partial_on_empty_filter_witness :
    maxpain c9Chain "30-Jan-2025" = Except.error PyErr.indexError :=
  (maxpain_partial_on_empty_filter c9Chain "30-Jan-2025").1 (by decide)

/-! ## `NSE.compileOptionChain`

The per-strike loop: each matching row yields a `{pe, ce, pcr}` record keyed by
`str(strikePrice)` and updates running totals and max-OI strikes.  Note the
source's CE branch writes `oi=poi` — the *Put* open interest — into the Call
record (`chain[strike]["ce"].update(dict(last=last, oi=poi, chg=chg, iv=iv))`),
while the totals and max-OI tracking use `coi`. -/

/-- Python `round()` on an exact rational: round half to even. -/
def pyRoundQ (q : ℚ) : Int :=
  let f := ⌊q⌋
  let r := q - (f : ℚ)
  if r < 1/2 then f
  else if 1/2 < r then f + 1
  else if f % 2 = 0 then f else f + 1

/-- Python `round(x, 2)` modelled on exact rationals. -/
def pyRound2 (q : ℚ) : ℚ := (pyRoundQ (q * 100) : ℚ) / 100

/-- One side of a compiled per-strike record:
`dict(last=…, oi=…, chg=…, iv=…)`. -/
structure SideRec where
  last : Int
  oi : Int
  chg : Int
  iv : Int
deriving DecidableEq, Repr

/-- One compiled per-strike record: `chain[strike]`. -/
structure StrikeRec where
  pe : SideRec
  ce : SideRec
  pcr : Option ℚ
deriving DecidableEq, Repr

/-- Running state of the compile loop. -/
structure CompileState where
  chain : List (String × StrikeRec)
  maxCoi : Int
  maxPoi : Int
  totalCoi : Int
  totalPoi : Int
  maxCoiStrike : Int
  maxPoiStrike : Int
deriving DecidableEq, Repr

/-- Python-dict style insert-or-overwrite preserving insertion order. -/
def setKey (l : List (String × StrikeRec)) (k : String) (v : StrikeRec) :
    List (String × StrikeRec) :=
  match l with
  | [] => [(k, v)]
  | (k', v') :: rest => if k' = k then (k, v) :: rest else (k', v') :: setKey rest k v

/-- One iteration of the `for idx in data["records"]["data"]` loop in
`compileOptionChain` (the `continue` on a non-matching expiry included). -/
def processRow (expiryDateStr : String) (st : CompileState) (r : OCRow) : CompileState :=
  if r.expiryDates ≠ expiryDateStr then st
  else
    let strike := toString r.strikePrice
    let poi : Int := match r.PE with | some p => p.openInterest | none => 0
    let coi : Int := match r.CE with | some c => c.openInterest | none => 0
    let peRec : SideRec :=
      match r.PE with
      | some p => ⟨p.lastPrice, poi, p.chg, p.impliedVolatility⟩
      | none => ⟨0, 0, 0, 0⟩
    -- source: `chain[strike]["ce"].update(dict(last=last, oi=poi, chg=chg, iv=iv))`
    -- (the `oi` slot receives `poi`, the Put OI of the same row)
    let ceRec : SideRec :=
      match r.CE with
      | some c => ⟨c.lastPrice, poi, c.chg, c.impliedVolatility⟩
      | none => ⟨0, 0, 0, 0⟩
    let totalPoi := if r.PE.isSome then st.totalPoi + poi else st.totalPoi
    let maxPoi := if r.PE.isSome ∧ poi > st.maxPoi then poi else st.maxPoi
    let maxPoiStrike :=
      if r.PE.isSome ∧ poi > st.maxPoi then r.strikePrice else st.maxPoiStrike
    let totalCoi := if r.CE.isSome then st.totalCoi + coi else st.totalCoi
    let maxCoi := if r.CE.isSome ∧ coi > st.maxCoi then coi else st.maxCoi
    let maxCoiStrike :=
      if r.CE.isSome ∧ coi > st.maxCoi then r.strikePrice else st.maxCoiStrike
    let pcr : Option ℚ :=
      if poi = 0 ∨ coi = 0 then none
      else some (pyRound2 ((poi : ℚ) / (coi : ℚ)))
    ⟨setKey st.chain strike ⟨peRec, ceRec, pcr⟩,
      maxCoi, maxPoi, totalCoi, totalPoi, maxCoiStrike, maxPoiStrike⟩

/-- The dictionary `compileOptionChain` returns. -/
structure ChainSummary where
  expiry : String
  timestamp : String
  underlying : Int
  atm : Int
  maxpain : Int
  maxCoi : Int
  maxPoi : Int
  coiTotal : Int
  poiTotal : Int
  pcr : ℚ
  chain : List (String × StrikeRec)
deriving DecidableEq, Repr

/-- Embeds `NSE.compileOptionChain(symbol, expiryDate)`, applied to the already
fetched raw payload and the formatted expiry string.  Failure points, in the
source's evaluation order: indexing `data["filtered"]["data"][0]`/`[1]`
(`IndexError`), `round(underlying / multiple)` with a zero spacing
(`ZeroDivisionError`), `self.maxpain(...)` on an empty filter (`IndexError`),
and the aggregate `round(totalPoi / totalCoi, 2)` with zero total Call OI
(`ZeroDivisionError`, unguarded — the per-strike `pcr` is guarded). -/
def compileOptionChain (payload : OptionChainPayload) (expiryDateStr : String) :
    Except PyErr ChainSummary :=
  match payload.filtered[0]?, payload.filtered[1]? with
  | some row0, some row1 =>
    let strike1 : Int := row0.strikePrice
    let strike2 : Int := row1.strikePrice
    let multiple : Int := strike1 - strike2
    if multiple = 0 then .error .zeroDivisionError
    else
      let atm : Int :=
        multiple * pyRoundQ ((payload.records.underlyingValue : ℚ) / (multiple : ℚ))
      let st := payload.records.data.foldl (processRow expiryDateStr) ⟨[], 0, 0, 0, 0, 0, 0⟩
      match maxpain payload expiryDateStr with
      | .error e => .error e
      | .ok mp =>
        if st.totalCoi = 0 then .error .zeroDivisionError
        else
          .ok ⟨expiryDateStr, payload.records.timestamp, payload.records.underlyingValue,
            atm, mp, st.maxCoiStrike, st.maxPoiStrike, st.totalCoi, st.totalPoi,
            pyRound2 ((st.totalPoi : ℚ) / (st.totalCoi : ℚ)), st.chain⟩
  | _, _ => .error .indexError

/-- A raw payload whose single matching row carries CE open interest 100 and
PE open interest 5 (plus a two-row `filtered` list for the strike spacing). -/
def c2Payload : OptionChainPayload :=
  ⟨⟨"ts", 100, [⟨"30-Jan-2025", 100, some ⟨100, 12, 3, 15⟩, some ⟨5, 7, 1, 9⟩⟩]⟩,
   [⟨"30-Jan-2025", 100, none, none⟩, ⟨"30-Jan-2025", 110, none, none⟩]⟩

/-- Claim C2 (code bug): the claim says the call record's open-interest field equals the
row's CE `openInterest`.  The code instead stores the row's *PE* open interest
in the call record (`oi=poi` in the CE branch): on a row with CE OI 100 and
PE OI 5, the compiled call record's `oi` is 5. -/
theorem compileOptionChain_ce_oi_takes_pe_value :
    (compileOptionChain c2Payload "30-Jan-2025").map
        (fun res => (res.chain.lookup "100").map (fun rec => rec.ce.oi))
      = Except.ok (some 5)
    ∧ (c2Payload.records.data.head?.bind (fun r => r.CE)).map (fun c => c.openInterest)
      = some 100
    ∧ (c2Payload.records.data.head?.bind (fun r => r.PE)).map (fun p => p.openInterest)
      = some 5 := by
  refine ⟨rfl, rfl, rfl⟩

/-- A payload with a well-formed `filtered` list but no row matching the
requested expiry (so the total Call OI of the matching rows is vacuously 0). -/
def c10NoMatchPayload : OptionChainPayload :=
  ⟨⟨"ts", 100, [⟨"27-Feb-2025", 100, some ⟨10, 0, 0, 0⟩, some ⟨5, 0, 0, 0⟩⟩]⟩,
   [⟨"27-Feb-2025", 100, none, none⟩, ⟨"27-Feb-2025", 110, none, none⟩]⟩

/-- Counterexample to **C10** as stated: on a chain whose matching rows have
zero total Call OI because *no* row matches, the operation fails with
`IndexError` (raised first, inside `maxpain`), not with `ZeroDivisionError`. -/
theorem compileOptionChain_divzero_counterexample :
    ((c10NoMatchPayload.records.data.filter
        (fun r => r.expiryDates = "30-Jan-2025")).map ceOiOf).sum = 0
    ∧ compileOptionChain c10NoMatchPayload "30-Jan-2025" = Except.error PyErr.indexError
    ∧ compileOptionChain c10NoMatchPayload "30-Jan-2025"
        ≠ Except.error PyErr.zeroDivisionError := by
  refine ⟨rfl, rfl, ?_⟩
  intro h
  have h2 : PyErr.indexError = PyErr.zeroDivisionError := by
    have h1 : (Except.error PyErr.indexError : Except PyErr ChainSummary)
        = Except.error PyErr.zeroDivisionError := by
      rw [← h]
      rfl
    injection h1
  cases h2

theorem foldl_processRow_totalCoi (e : String) (data : List OCRow) :
    ∀ st : CompileState, (data.foldl (processRow e) st).totalCoi
      = st.totalCoi + ((data.filter (fun r => r.expiryDates = e)).map ceOiOf).sum := by
  induction data with
  | nil => intro st; simp
  | cons r rs ih =>
    intro st
    rw [List.foldl_cons, List.filter_cons, ih (processRow e st r)]
    by_cases hr : r.expiryDates = e
    · rw [if_pos (by simpa using hr)]
      have hstep : (processRow e st r).totalCoi = st.totalCoi + ceOiOf r := by
        rw [processRow, if_neg (by simpa using hr)]
        cases hce : r.CE with
        | none => simp [hce, ceOiOf]
        | some c => simp [hce, ceOiOf]
      rw [hstep]
      simp
      ring
    · rw [if_neg (by simpa using hr)]
      have hstep : processRow e st r = st := by
        rw [processRow, if_pos (by simpa using hr)]
      rw [hstep]

theorem maxpain_ok_of_matched_ne (chain : OptionChainPayload) (expiry : String)
    (hne : matchedRows chain expiry ≠ []) :
    ∃ s, maxpain chain expiry = Except.ok s := by
  rcases hmap : (matchedRows chain expiry).map (fun rr => rr.strikePrice)
    with _ | ⟨s0, rest⟩
  · exact absurd (List.map_eq_nil_iff.mp hmap) hne
  · refine ⟨((s0 :: rest).enum.foldl (mpStepIdx (painAt (s0 :: rest)
      ((matchedRows chain expiry).map ceOiOf)
      ((matchedRows chain expiry).map peOiOf))) (none, s0)).2, ?_⟩
    simp only [maxpain, hmap]

/-- Claim C10 (amended): whenever the preliminary steps succeed (the `filtered`
list supplies two leading rows with distinct strikes) and at least one row
matches the expiry, zero total Call open interest over the matching rows makes
`compileOptionChain` fail with `ZeroDivisionError` from the unguarded aggregate
put-call ratio `round(totalPoi / totalCoi, 2)` — even though the per-strike
ratio is guarded. -/
theorem compileOptionChain_pcr_div_zero (payload : OptionChainPayload) (e : String)
    (hlen : 2 ≤ payload.filtered.length)
    (hmul : (payload.filtered.map (fun r => r.strikePrice)).getD 0 0
      ≠ (payload.filtered.map (fun r => r.strikePrice)).getD 1 0)
    (hne : payload.records.data.filter (fun r => r.expiryDates = e) ≠ [])
    (hcoi : ((payload.records.data.filter (fun r => r.expiryDates = e)).map ceOiOf).sum
      = 0) :
    compileOptionChain payload e = Except.error PyErr.zeroDivisionError := by
  obtain ⟨recs, filt⟩ := payload
  rcases filt with _ | ⟨a, filt'⟩
  · simp at hlen
  rcases filt' with _ | ⟨b, rest⟩
  · simp at hlen
  have hgd : (((a :: b :: rest).map (fun r => r.strikePrice)).getD 0 0 : Int)
      = a.strikePrice := rfl
  have hgd2 : (((a :: b :: rest).map (fun r => r.strikePrice)).getD 1 0 : Int)
      = b.strikePrice := rfl
  have hmul' : a.strikePrice - b.strikePrice ≠ 0 := by
    rw [hgd, hgd2] at hmul
    omega
  obtain ⟨s, hs⟩ := maxpain_ok_of_matched_ne ⟨recs, a :: b :: rest⟩ e hne
  have htc : ((recs.data.foldl (processRow e)
      (⟨[], 0, 0, 0, 0, 0, 0⟩ : CompileState)).totalCoi) = 0 := by
    rw [foldl_processRow_totalCoi]
    simpa using hcoi
  simp only [compileOptionChain, List.getElem?_cons_zero, List.getElem?_cons_succ]
  rw [if_neg hmul', hs]
  simp [htc]

/-- A payload whose single matching row carries only a PE side. -/
def c10PeOnlyPayload : OptionChainPayload :=
  ⟨⟨"ts", 100, [⟨"30-Jan-2025", 100, none, some ⟨5, 7, 1, 9⟩⟩]⟩,
   [⟨"30-Jan-2025", 100, none, none⟩, ⟨"30-Jan-2025", 110, none, none⟩]⟩

/-- Witness for the amended C10: a chain whose matching rows carry no CE side
makes `compileOptionChain` fail with `ZeroDivisionError`. -/
theorem compileOptionChain_pcr_div_zero_witness :
    compileOptionChain c10PeOnlyPayload "30-Jan-2025"
      = Except.error PyErr.zeroDivisionError :=
  compileOptionChain_pcr_div_zero c10PeOnlyPayload "30-Jan-2025" (by decide) (by decide)
    (by decide) (by decide)

/-! ## Cookie store: `NSE._getCookies`, `NSE._hasCookiesExpired`

The cookie file is read with `pickle.loads(self.cookie_path.read_bytes())`;
there is no `try/except` around it.  The file content is modelled as either
bytes that deserialize to a jar or bytes that fail to deserialize
(`pickle.UnpicklingError`). -/

/-- A cookie as the expiry check sees it: `is_expired` consults the optional
`expires` timestamp. -/
structure Cookie where
  name : String
  value : String
  expires : Option Int
deriving DecidableEq, Repr

/-- Models `http.cookiejar.Cookie.is_expired(now)`: true iff `expires` is set and
`expires <= now`. -/
def cookieIsExpired (now : Int) (c : Cookie) : Bool :=
  match c.expires with
  | some t => t ≤ now
  | none => false

/-- Embeds `NSE._hasCookiesExpired`: any cookie in the jar is expired. -/
def hasCookiesExpired (now : Int) (jar : List Cookie) : Bool :=
  jar.any (cookieIsExpired now)

/-- The persisted cookie-file bytes as `pickle.loads` sees them. -/
inductive PickleBytes where
  | valid (jar : List Cookie)
  | corrupt
deriving DecidableEq, Repr

/-- Embeds `NSE._getCookies`; `bootstrap` is the jar `_setCookies` acquires from the
bootstrap request to the landing page; `file` is the persisted cookie file
(`none` when `cookie_path.exists()` is false).  `pickle.loads` on corrupt
bytes raises — there is no handler. -/
def getCookies (file : Option PickleBytes) (now : Int) (bootstrap : List Cookie) :
    Except PyErr (List Cookie) :=
  match file with
  | some (.valid jar) => if hasCookiesExpired now jar then .ok bootstrap else .ok jar
  | some .corrupt => .error .unpicklingError
  | none => .ok bootstrap

/-- Counterexample to **C3** as stated: a cookie file that exists but fails to
deserialize makes session construction raise the deserialization error; it is
*not* treated as absent (which would bootstrap and return the fresh jar). -/
theorem getCookies_corrupt_counterexample :
    getCookies (some PickleBytes.corrupt) 0 [⟨"nsit", "nse", none⟩]
      = Except.error PyErr.unpicklingError
    ∧ getCookies (some PickleBytes.corrupt) 0 [⟨"nsit", "nse", none⟩]
      ≠ Except.ok [⟨"nsit", "nse", none⟩] :=
  ⟨rfl, fun h => Except.noConfusion h⟩

/-- Claim C3 (amended): a corrupt cookie file raises `pickle.UnpicklingError` to
the caller; only a *missing* file (or an expired jar) silently re-acquires
cookies via the bootstrap request. -/
theorem getCookies_corrupt_raises (now : Int) (boot jar : List Cookie) :
    getCookies (some PickleBytes.corrupt) now boot = Except.error PyErr.unpicklingError
    ∧ getCookies none now boot = Except.ok boot
    ∧ (hasCookiesExpired now jar = true →
        getCookies (some (PickleBytes.valid jar)) now boot = Except.ok boot)
    ∧ (hasCookiesExpired now jar = false →
        getCookies (some (PickleBytes.valid jar)) now boot = Except.ok jar) := by
  refine ⟨rfl, rfl, ?_, ?_⟩ <;> intro h <;> simp [getCookies, h]

/-- Witness for C3 (amended) at concrete inputs: an unexpired persisted jar is
reused; an expired one is replaced by the bootstrap jar. -/
theorem getCookies_corrupt_raises_witness :
    getCookies (some (PickleBytes.valid [⟨"nsit", "nse", some 100⟩])) 50 []
      = Except.ok [⟨"nsit", "nse", some 100⟩]
    ∧ getCookies (some (PickleBytes.valid [⟨"nsit", "nse", some 100⟩])) 200
        [⟨"bm_sv", "x", none⟩] = Except.ok [⟨"bm_sv", "x", none⟩] :=
  ⟨(getCookies_corrupt_raises 50 [] [⟨"nsit", "nse", some 100⟩]).2.2.2 (by decide),
   (getCookies_corrupt_raises 200 [⟨"bm_sv", "x", none⟩]
      [⟨"nsit", "nse", some 100⟩]).2.2.1 (by decide)⟩

/-! ## Download layer: `NSE._download` and the post-download check

The file system is modelled flatly as an association list from paths to byte
lists. -/

/-- Models `path.is_file()` in the flat file-system model. -/
def isFile (fs : List (String × List Nat)) (p : String) : Bool :=
  (fs.lookup p).isSome

/-- Models `url.split("/")[-1]`. -/
def fnameFromUrl (url : String) : String :=
  (url.splitOn "/").getLastD url

/-- Python `needle in hay` on strings. -/
def strContains (hay needle : String) : Bool :=
  hay.toList.tails.any (fun t => needle.toList.isPrefixOf t)

/-- An HTTP response as `_download` consumes it: the `content-type` header
(`headers.get` may yield nothing) and the streamed byte chunks. -/
structure HttpResponse where
  contentType : Option String
  chunks : List (List Nat)
deriving DecidableEq, Repr

/-- Embeds `NSE._download(url, folder)`: derives the destination name from the URL's
last path segment; if the content type contains `text/html` it raises
`RuntimeError("NSE file is unavailable or not yet updated.")` *before* opening
the destination file, so the file system is untouched; otherwise it streams
all chunks into the destination file.  (The `ConnectionError`/`TimeoutError`
transport failures of `_req` are separate `PyErr` constructors.) -/
def NSE_download (url : String) (folder : String) (resp : HttpResponse)
    (fs : List (String × List Nat)) :
    Except PyErr String × List (String × List Nat) :=
  let fname := folder ++ "/" ++ fnameFromUrl url
  let htmlPage :=
    match resp.contentType with
    | some ct => strContains ct "text/html"
    | none => false
  if htmlPage then
    (.error (.runtimeError "NSE file is unavailable or not yet updated."), fs)
  else
    (.ok fname, (fname, resp.chunks.join) :: fs)

/-- Claim C7: whenever the response's content type contains `text/html`, the
download raises the report-unavailable condition (`RuntimeError`, a constructor
distinct from the `connectionError`/`timeoutError` transport failures) and the
file system is returned unchanged: no destination file is created. -/
theorem download_html_raises (url folder : String) (resp : HttpResponse)
    (fs : List (String × List Nat)) (ct : String)
    (hct : resp.contentType = some ct)
    (hhtml : strContains ct "text/html" = true) :
    NSE_download url folder resp fs
      = (Except.error (PyErr.runtimeError "NSE file is unavailable or not yet updated."),
          fs) := by
  simp [NSE_download, hct, hhtml]

/-- Witness for C7: a concrete HTML error-page response is rejected and leaves
no file behind. -/
theorem download_html_raises_witness :
    NSE_download "https://nsearchives.nseindia.com/content/cm/x.zip" "/tmp"
        ⟨some "text/html; charset=UTF-8", [[60, 104]]⟩ []
      = (Except.error (PyErr.runtimeError "NSE file is unavailable or not yet updated."),
          []) :=
  download_html_raises "https://nsearchives.nseindia.com/content/cm/x.zip" "/tmp"
    ⟨some "text/html; charset=UTF-8", [[60, 104]]⟩ [] "text/html; charset=UTF-8"
    rfl (by decide)

/-- The post-stream check in `NSE.equityBhavcopy` (and the other report
downloads): `if not file.is_file(): file.unlink(); raise FileNotFoundError`.
On the missing-file branch the bare `unlink()` itself already raises
`FileNotFoundError`; either way `FileNotFoundError` propagates.  There is no
file-size check of any kind. -/
def equityBhavcopyCheck (fs : List (String × List Nat)) (file : String) :
    Except PyErr String :=
  if isFile fs file then .ok file else .error .fileNotFoundError

/-- Counterexample to **C4** as stated: a present but empty (0-byte) file —
smaller than any minimum-size heuristic — is returned as a success, not
rejected. -/
theorem bhavcopy_small_file_counterexample :
    equityBhavcopyCheck [("cm02JAN2023bhav.csv.zip", [])] "cm02JAN2023bhav.csv.zip"
      = Except.ok "cm02JAN2023bhav.csv.zip"
    ∧ (([("cm02JAN2023bhav.csv.zip", ([] : List Nat))].lookup
        "cm02JAN2023bhav.csv.zip").getD []).length = 0 :=
  ⟨rfl, rfl⟩

/-- Claim C4 (amended): after the stream completes, the operation fails (with
`FileNotFoundError`) exactly when the resulting file is absent; a present file
is returned regardless of its size — no minimum-size heuristic exists. -/
theorem equityBhavcopyCheck_absence_only (fs : List (String × List Nat))
    (file : String) :
    (isFile fs file = true → equityBhavcopyCheck fs file = Except.ok file)
    ∧ (isFile fs file = false →
        equityBhavcopyCheck fs file = Except.error PyErr.fileNotFoundError) := by
  constructor <;> intro h <;> simp [equityBhavcopyCheck, h]

/-- Witness for C4 (amended): a missing file fails with `FileNotFoundError`; a
present non-empty file is returned. -/
theorem equityBhavcopyCheck_absence_only_witness :
    equityBhavcopyCheck [] "x.zip" = Except.error PyErr.fileNotFoundError
    ∧ equityBhavcopyCheck [("y.zip", [80, 75])] "y.zip" = Except.ok "y.zip" :=
  ⟨(equityBhavcopyCheck_absence_only [] "x.zip").2 (by decide),
   (equityBhavcopyCheck_absence_only [("y.zip", [80, 75])] "y.zip").1 (by decide)⟩

/-! ## Archive unpacker: `NSE._unzip`

Paths are modelled as a directory plus a file name, with the process's current
working directory made explicit (a bare relative path like `Path(file.stem)`
resolves against it). -/

/-- A file path: directory plus file name. -/
structure FPath where
  dir : String
  name : String
deriving DecidableEq, Repr

/-- Split a character list at every `'.'` (like `str.split(".")`). -/
def splitOnDotChars : List Char → List (List Char)
  | [] => [[]]
  | c :: cs =>
    match splitOnDotChars cs with
    | [] => [[c]]
    | p :: ps => if c = '.' then [] :: p :: ps else (c :: p) :: ps

/-- Join character chunks with `'.'` between them. -/
def joinWithDot : List (List Char) → List Char
  | [] => []
  | [p] => p
  | p :: q :: ps => p ++ '.' :: joinWithDot (q :: ps)

/-- Models `pathlib.Path.suffix` on a plain file name: the final `.`-extension (with
the dot), or `""` when there is none. -/
def nameSuffix (n : String) : String :=
  let parts := splitOnDotChars n.toList
  if parts.length ≤ 1 then "" else "." ++ String.mk (parts.getLastD [])

/-- Models `pathlib.Path.stem` on a plain file name: the name with the final suffix
stripped. -/
def nameStem (n : String) : String :=
  let parts := splitOnDotChars n.toList
  if parts.length ≤ 1 then n else String.mk (joinWithDot parts.dropLast)

/-- Embeds `NSE._unzip(file, folder, extract_files)` path semantics.  ZIP branch:
member names extract into `folder` (the whole `extract_files` list when given
and non-empty — returning the last member — otherwise the archive's first
member, `IndexError` if the archive is empty).  GZ branch: the source opens
`open(file.stem, "wb")` — a bare *relative* path — so the decompressed file is
created in the process's current working directory `cwd`, not next to the
source and not in `folder`, and the bare `Path(file.stem)` is returned.  Any
other suffix raises `ValueError("Unknown file format")`. -/
def unzipPath (cwd : String) (file : FPath) (folder : String)
    (zipNames : List String) (extract_files : Option (List String)) :
    Except PyErr FPath :=
  if nameSuffix file.name = ".zip" then
    match extract_files with
    | some (x :: xs) => .ok ⟨folder, (x :: xs).getLast (List.cons_ne_nil x xs)⟩
    | _ =>
      match zipNames with
      | [] => .error .indexError
      | n :: _ => .ok ⟨folder, n⟩
  else if nameSuffix file.name = ".gz" then
    .ok ⟨cwd, nameStem file.name⟩
  else
    .error (.valueError "Unknown file format")

/-- Claim C8 (code bug): the claim says the gz branch decompresses to a *sibling* file (in
the source's own folder).  The code opens the bare relative path `file.stem`,
so the output is created in the process's current working directory: with
cwd `/work` and source `/data/foo.csv.gz`, the produced and returned path is
`/work/foo.csv` with directory `/work`, not the source's folder `/data` —
even though the caller passed `/data` as the destination folder.  The name is
indeed the source name stripped of its compression suffix, and the ZIP branch
honours `folder`, which shows ignoring `folder`/the source folder in the gz
branch is a slip. -/
theorem unzip_gz_writes_to_cwd :
    unzipPath "/work" ⟨"/data", "foo.csv.gz"⟩ "/data" [] none
      = Except.ok ⟨"/work", "foo.csv"⟩
    ∧ ("/work" : String) ≠ "/data"
    ∧ unzipPath "/work" ⟨"/data", "member.zip"⟩ "/data" ["inner.csv"] none
      = Except.ok ⟨"/data", "inner.csv"⟩ := by
  refine ⟨by decide, by decide, by decide⟩

/-! ## Expiry cache: `NSE.optionChain`'s nearest-expiry resolution

Dates are modelled as integer day ordinals (the `"%d-%b-%Y"`/ISO-8601
formatting and parsing between them is a bijection the model elides).  The
JSON values that can land in the cache file are modelled by `JVal`; the cache
file itself is `none` when missing, `some none` when present but unparsable,
and `some (some v)` when it parses to `v`. -/

/-- A JSON value as it matters here: a date leaf, a list of dates (the
`expiryDates` field of the contract-info response), or an object. -/
inductive JVal where
  | date (d : Int)
  | dates (ds : List Int)
  | obj (fields : List (String × JVal))

/-- One resolution step of `NSE.optionChain` when `expiry_date` is not passed:
reads the cache file (`{}` when missing or unparsable), checks
`symbol_key in cache` and the freshness test `date.today() > expiry.date()`;
on a valid hit returns the cached expiry without touching the network; on a
miss consults the contract-info response `optInfo`, validates `expiryDates`,
takes the first entry — and then persists `json.dumps(opt_info)`: the raw
response, not the `cache` dict the code just updated in memory.  Returns the
expiry used, the cache-file content after the call, and whether the
contract-info endpoint was hit. -/
def optionChainResolveExpiry (cacheFile : Option (Option JVal)) (symbolKey : String)
    (today : Int) (optInfo : List (String × JVal)) :
    Except PyErr (Int × Option (Option JVal) × Bool) :=
  let cache : List (String × JVal) :=
    match cacheFile with
    | some (some (JVal.obj fields)) => fields
    | _ => []
  let cachedExpiry : Except PyErr (Option Int) :=
    match cache.lookup symbolKey with
    | none => .ok none
    | some (JVal.date d) => .ok (if today > d then none else some d)
    | some _ => .error .typeError
  match cachedExpiry with
  | .error err => .error err
  | .ok (some d) => .ok (d, cacheFile, false)
  | .ok none =>
    match optInfo.lookup "expiryDates" with
    | none => .error (.valueError "Missing `expiryDates` field in option chain contract info")
    | some (JVal.dates []) => .error (.valueError "No expiry dates returned from NSE")
    | some (JVal.dates (d :: _)) => .ok (d, some (some (JVal.obj optInfo)), true)
    | some _ => .error .typeError

/-- The contract-info response for the concrete C5 run. -/
def c5OptInfo : List (String × JVal) := [("expiryDates", JVal.dates [20100, 20200])]

/-- Claim C5 (code bug): the claim says the persisted expiry-cache file maps the
lower-cased symbol to the resolved expiry, so the next call finds the symbol
key and reuses it without re-resolving.  The code instead persists
`json.dumps(opt_info)` — the raw contract-info response — so the written file
has no `"nifty"` key, and the next call misses the cache and hits the
contract-info endpoint again (third conjunct: the `Bool` is `true` again).
The method's own docstring ("Updates the local cache with the resolved expiry
date") and the repository test `test_writes_expiry_cache_file` (asserting
`"nifty" in data` for the written file) both promise the claimed behaviour,
and the last conjunct shows a file of the promised shape *would* be reused
without re-resolving — so the code, not the claim, is wrong. -/
theorem optionChain_cache_write_bug :
    optionChainResolveExpiry none "nifty" 20000 c5OptInfo
      = Except.ok (20100, some (some (JVal.obj c5OptInfo)), true)
    ∧ c5OptInfo.lookup "nifty" = none
    ∧ optionChainResolveExpiry (some (some (JVal.obj c5OptInfo))) "nifty" 20000 c5OptInfo
      = Except.ok (20100, some (some (JVal.obj c5OptInfo)), true)
    ∧ optionChainResolveExpiry (some (some (JVal.obj [("nifty", JVal.date 20100)])))
        "nifty" 20000 c5OptInfo
      = Except.ok (20100, some (some (JVal.obj [("nifty", JVal.date 20100)])), false) :=
  ⟨rfl, rfl, rfl, rfl⟩

/-! ## `NSE._split_date_range`

Dates are integer day ordinals; `timedelta(days=k)` is `+ k`.  The Python
`while current_start <= to_date` loop advances by `max_chunk_size` days per
iteration (`current_end = current_start + (max_chunk_size - 1)` capped at
`to_date`, then `current_start = current_end + 1`), so for
`max_chunk_size ≥ 1` it terminates after at most `to_date - from_date + 1`
iterations; `splitGo` carries that iteration count as explicit fuel.  (For
`max_chunk_size ≤ 0` the Python loop never terminates; the claim's
precondition `max_chunk_size ≥ 1` excludes that.) -/

/-- The chunking loop of `_split_date_range`, with fuel. -/
def splitGo (m to_ : Int) : Nat → Int → List (Int × Int)
  | 0, _ => []
  | fuel + 1, start =>
    if start ≤ to_ then
      (start, min (start + (m - 1)) to_)
        :: splitGo m to_ fuel (min (start + (m - 1)) to_ + 1)
    else []

/-- Embeds `NSE._split_date_range(from_date, to_date, max_chunk_size)`. -/
def splitDateRange (from_ to_ m : Int) : List (Int × Int) :=
  splitGo m to_ (to_ - from_ + 1).toNat from_

theorem splitGo_gt (m to_ : Int) (fuel : Nat) (start : Int) (h : to_ < start) :
    splitGo m to_ fuel start = [] := by
  cases fuel with
  | zero => rfl
  | succ fuel => rw [splitGo, if_neg (by omega)]

theorem splitGo_spec (m to_ : Int) (hm : 1 ≤ m) (fuel : Nat) :
    ∀ start : Int, start ≤ to_ → to_ - start + 1 ≤ (fuel : Int) →
      (splitGo m to_ fuel start).head?.map Prod.fst = some start
      ∧ (splitGo m to_ fuel start).getLast?.map Prod.snd = some to_
      ∧ (∀ c ∈ splitGo m to_ fuel start,
          start ≤ c.1 ∧ c.1 ≤ c.2 ∧ c.2 ≤ to_ ∧ c.2 - c.1 + 1 ≤ m)
      ∧ List.Chain' (fun a b => b.1 = a.2 + 1) (splitGo m to_ fuel start)
      ∧ List.Pairwise (fun a b => a.2 < b.1) (splitGo m to_ fuel start)
      ∧ (∀ d : Int, (start ≤ d ∧ d ≤ to_) ↔
          ∃ c ∈ splitGo m to_ fuel start, c.1 ≤ d ∧ d ≤ c.2) := by
  induction fuel with
  | zero =>
    intro start h1 h2
    exfalso
    simp only [Nat.cast_zero] at h2
    omega
  | succ fuel ih =>
    intro start h1 h2
    rw [splitGo, if_pos h1]
    by_cases he : to_ ≤ start + (m - 1)
    · have he' : min (start + (m - 1)) to_ = to_ := min_eq_right he
      rw [he', splitGo_gt m to_ fuel (to_ + 1) (by omega)]
      refine ⟨rfl, rfl, ?_, ?_, ?_, ?_⟩
      · intro c hc
        rw [List.mem_singleton] at hc
        subst hc
        refine ⟨le_refl _, h1, le_refl _, by omega⟩
      · exact List.chain'_singleton _
      · exact List.pairwise_singleton _ _
      · intro d
        simp only [List.mem_singleton]
        constructor
        · intro hd
          exact ⟨(start, to_), rfl, hd.1, hd.2⟩
        · rintro ⟨c, hc, hcd⟩
          subst hc
          exact ⟨hcd.1, hcd.2⟩
    · have he' : min (start + (m - 1)) to_ = start + (m - 1) := min_eq_left (by omega)
      rw [he']
      have hstart' : start + (m - 1) + 1 ≤ to_ := by omega
      have hfuel' : to_ - (start + (m - 1) + 1) + 1 ≤ (fuel : Int) := by
        push_cast at h2 ⊢
        omega
      obtain ⟨ih1, ih2, ih3, ih4, ih5, ih6⟩ := ih (start + (m - 1) + 1) hstart' hfuel'
      rcases hrest : splitGo m to_ fuel (start + (m - 1) + 1) with _ | ⟨rr, rest'⟩
      · rw [hrest] at ih1
        simp at ih1
      · rw [hrest] at ih1 ih2 ih3 ih4 ih5 ih6
        have hrr : rr.1 = start + (m - 1) + 1 := by
          simp only [List.head?_cons, Option.map_some] at ih1
          exact Option.some.inj ih1
        refine ⟨rfl, ?_, ?_, ?_, ?_, ?_⟩
        · rw [List.getLast?_cons_cons]
          exact ih2
        · intro c hc
          rcases List.mem_cons.mp hc with h | h
          · subst h
            refine ⟨le_refl _, by omega, by omega, by omega⟩
          · obtain ⟨hc1, hc2, hc3, hc4⟩ := ih3 c h
            exact ⟨by omega, hc2, hc3, hc4⟩
        · rw [List.chain'_cons]
          exact ⟨by omega, ih4⟩
        · rw [List.pairwise_cons]
          refine ⟨?_, ih5⟩
          intro c hc
          have := (ih3 c hc).1
          simp only []
          omega
        · intro d
          constructor
          · intro hd
            by_cases hde : d ≤ start + (m - 1)
            · exact ⟨(start, start + (m - 1)), List.mem_cons_self _ _, hd.1, hde⟩
            · obtain ⟨c, hc, hcd⟩ := (ih6 d).mp ⟨by omega, hd.2⟩
              exact ⟨c, List.mem_cons_of_mem _ hc, hcd⟩
          · rintro ⟨c, hc, hcd⟩
            rcases List.mem_cons.mp hc with h | h
            · subst h
              simp only [] at hcd
              exact ⟨hcd.1, by omega⟩
            · obtain ⟨hc1, hc2, hc3, hc4⟩ := ih3 c h
              exact ⟨by omega, by omega⟩

/-- Claim C6: for `from_date ≤ to_date` and `max_chunk_size ≥ 1`,
`_split_date_range` returns a non-empty list of inclusive chunks whose first
start is `from_date`, whose last end is `to_date`, whose chunks each span at
most `max_chunk_size` days inclusive, which are contiguous (each start is one
day after the previous end), sorted and non-overlapping, and whose union is
exactly the input range. -/
theorem split_date_range_spec (from_ to_ m : Int) (hft : from_ ≤ to_) (hm : 1 ≤ m) :
    splitDateRange from_ to_ m ≠ []
    ∧ (splitDateRange from_ to_ m).head?.map Prod.fst = some from_
    ∧ (splitDateRange from_ to_ m).getLast?.map Prod.snd = some to_
    ∧ (∀ c ∈ splitDateRange from_ to_ m, c.1 ≤ c.2 ∧ c.2 - c.1 + 1 ≤ m)
    ∧ List.Chain' (fun a b => b.1 = a.2 + 1) (splitDateRange from_ to_ m)
    ∧ List.Pairwise (fun a b => a.2 < b.1) (splitDateRange from_ to_ m)
    ∧ (∀ d : Int, (from_ ≤ d ∧ d ≤ to_) ↔
        ∃ c ∈ splitDateRange from_ to_ m, c.1 ≤ d ∧ d ≤ c.2) := by
  have hcast : to_ - from_ + 1 ≤ (((to_ - from_ + 1).toNat : Nat) : Int) :=
    Int.self_le_toNat _
  obtain ⟨h1, h2, h3, h4, h5, h6⟩ :=
    splitGo_spec m to_ hm (to_ - from_ + 1).toNat from_ hft hcast
  refine ⟨?_, h1, h2, ?_, h4, h5, h6⟩
  · intro hnil
    rw [splitDateRange] at hnil
    rw [hnil] at h1
    simp at h1
  · intro c hc
    obtain ⟨_, hb, _, hd⟩ := h3 c hc
    exact ⟨hb, hd⟩

/-- Witness for C6 at the spec's own example scaled to day ordinals: a 365-day
range (`0..364`) chunked at 100 days.  The first conjunct evaluates the
embedded code to the concrete chunk list; the second applies the theorem. -/
theorem split_date_range_spec_witness :
    splitDateRange 0 364 100 = [(0, 99), (100, 199), (200, 299), (300, 364)]
    ∧ (splitDateRange 0 364 100).getLast?.map Prod.snd = some 364 :=
  ⟨by decide, (split_date_range_spec 0 364 100 (by decide) (by decide)).2.2.1⟩
